import Mathlib

/-!
Verification of the potatocache group-tag cache invalidation layer
(`potatocache/caching.py`) against its specification.

The backing store (`django.core.cache`) is modelled as a partial map from
string keys to Python values.  Python values are modelled by `PyVal`
(strings, integers, `None` and string-keyed dicts), Python dicts by
association lists with unique keys, and `uuid.uuid4().hex` by a caller
supplied stream of fresh tokens.
-/

namespace PotatoCache

/-- A Python value as stored in the cache backend: strings (markers, text
results), integers, `None`, or a string-keyed `dict` (the envelope). -/
inductive PyVal : Type where
  | vStr : String → PyVal
  | vInt : Int → PyVal
  | vNone : PyVal
  | vDict : List (String × PyVal) → PyVal
deriving Repr

mutual

/-- Structural equality test on Python values. -/
def PyVal.beq : PyVal → PyVal → Bool
  | .vStr a, .vStr b => a == b
  | .vInt a, .vInt b => a == b
  | .vNone, .vNone => true
  | .vDict a, .vDict b => beqEntries a b
  | _, _ => false

/-- Structural equality test on dict entry lists. -/
def beqEntries : List (String × PyVal) → List (String × PyVal) → Bool
  | [], [] => true
  | (k1, v1) :: r1, (k2, v2) :: r2 =>
      k1 == k2 && PyVal.beq v1 v2 && beqEntries r1 r2
  | _, _ => false

end

mutual

/-- The equality test decides propositional equality on values. -/
theorem PyVal.beq_iff : ∀ a b : PyVal, PyVal.beq a b = true ↔ a = b
  | .vStr a, .vStr b => by simp [PyVal.beq]
  | .vInt a, .vInt b => by simp [PyVal.beq]
  | .vNone, .vNone => by simp [PyVal.beq]
  | .vDict a, .vDict b => by
      have h := beqEntries_iff a b
      simp [PyVal.beq, h]
  | .vStr _, .vInt _ => by simp [PyVal.beq]
  | .vStr _, .vNone => by simp [PyVal.beq]
  | .vStr _, .vDict _ => by simp [PyVal.beq]
  | .vInt _, .vStr _ => by simp [PyVal.beq]
  | .vInt _, .vNone => by simp [PyVal.beq]
  | .vInt _, .vDict _ => by simp [PyVal.beq]
  | .vNone, .vStr _ => by simp [PyVal.beq]
  | .vNone, .vInt _ => by simp [PyVal.beq]
  | .vNone, .vDict _ => by simp [PyVal.beq]
  | .vDict _, .vStr _ => by simp [PyVal.beq]
  | .vDict _, .vInt _ => by simp [PyVal.beq]
  | .vDict _, .vNone => by simp [PyVal.beq]

/-- The equality test decides propositional equality on entry lists. -/
theorem beqEntries_iff :
    ∀ l1 l2 : List (String × PyVal), beqEntries l1 l2 = true ↔ l1 = l2
  | [], [] => by simp [beqEntries]
  | (k1, v1) :: r1, (k2, v2) :: r2 => by
      have h1 := PyVal.beq_iff v1 v2
      have h2 := beqEntries_iff r1 r2
      simp [beqEntries, h1, h2, and_assoc]
  | [], (_, _) :: _ => by simp [beqEntries]
  | (_, _) :: _, [] => by simp [beqEntries]

end

instance : DecidableEq PyVal := fun a b => decidable_of_iff _ (PyVal.beq_iff a b)

/-- A Python dict with string keys, as an association list (unique keys in
all dicts this development builds). -/
abbrev PyDict := List (String × PyVal)

/-- Python `d[x]` lookup returning `none` when the key is absent. -/
def dget : PyDict → String → Option PyVal
  | [], _ => none
  | (k, v) :: rest, x => if x = k then some v else dget rest x

/-- Python `d[x] = w`: overwrite in place, append when absent. -/
def dset : PyDict → String → PyVal → PyDict
  | [], x, w => [(x, w)]
  | (k, v) :: rest, x, w =>
      if x = k then (k, w) :: rest else (k, v) :: dset rest x w

/-- Python `d.pop(x, None)`, the removal part: drop the entry for `x`. -/
def dremove : PyDict → String → PyDict
  | [], _ => []
  | (k, v) :: rest, x => if x = k then rest else (k, v) :: dremove rest x

/-- Python `x in d`. -/
def dmem (d : PyDict) (x : String) : Bool := (dget d x).isSome

/-- Python `d.get(x, None)`: `None` stands in for absence. -/
def pyGet (d : PyDict) (x : String) : PyVal := (dget d x).getD .vNone

/-- Python truthiness of a value (`v or default` keeps truthy `v`). -/
def PyVal.truthy : PyVal → Bool
  | .vStr s => !(s == "")
  | .vInt n => !(n == 0)
  | .vNone => false
  | .vDict d => !d.isEmpty

/-- The backing key-value store (django cache backend): a partial map. -/
def Store : Type := String → Option PyVal

/-- Pointwise update of the store (one `cache.set`). -/
def Store.set (s : Store) (k : String) (v : PyVal) : Store :=
  fun x => if x = k then some v else s x

/-- The empty backend. -/
def emptyStore : Store := fun _ => none

/-- Django `cache.get_many(keys)`: a dict holding only the keys present in
the backend; a stored `None` is indistinguishable from a miss and omitted. -/
def getManyAux (s : Store) : List String → PyDict → PyDict
  | [], acc => acc
  | k :: rest, acc =>
      getManyAux s rest
        (match s k with
          | some v => if v = .vNone then acc else dset acc k v
          | none => acc)

/-- Django `cache.get_many(keys)` starting from the empty result dict. -/
def get_many (s : Store) (keys : List String) : PyDict := getManyAux s keys []

/-- Django `cache.set_many(mapping, ...)`: set every entry in order.  The
`timeout` argument has no logical effect and is not modelled. -/
def set_many (s : Store) : PyDict → Store
  | [] => s
  | (k, v) :: rest => set_many (s.set k v) rest

/-- Python `template % args` (string interpolation, an external language
builtin) for `%s`-only templates: substitute the positional arguments for
the occurrences of `%s` in order. -/
def fmtParts : List String → List String → String
  | [], _ => ""
  | [p], _ => p
  | p :: ps, [] => p ++ fmtParts ps []
  | p :: ps, x :: xs => p ++ x ++ fmtParts ps xs

/-- Python `template % args` using `String.splitOn` at `"%s"`. -/
def pyFormat (template : String) (args : List String) : String :=
  fmtParts (template.splitOn "%s") args

/-- The dict comprehension
`{g: v or _make_marker_value() for g, v in multi_result.iteritems()}`:
truthy stored values are kept, falsy ones replaced by fresh markers drawn
from the uuid stream `u` starting at index `n`. -/
def mintMarkers (u : Nat → String) : PyDict → Nat → PyDict
  | [], _ => []
  | (g, v) :: rest, n =>
      if v.truthy then (g, v) :: mintMarkers u rest n
      else (g, .vStr (u n)) :: mintMarkers u rest (n + 1)

/-- The freshness loop: `re_evaluate` ends up true iff some group's current
marker differs from the marker recorded in the cached envelope
(`value != cache_value.get(group, None)`). -/
def staleCheck (marker_values : PyDict) (cv : PyDict) : Bool :=
  marker_values.any (fun gv => decide (¬ gv.2 = pyGet cv gv.1))

/-- The decorator configuration: `cached(key, arg_key, groups, debug)`. -/
structure Config where
  key : Option String
  arg_key : Option String
  groups : Option (List String)
  debug : Bool

/-- Exceptions the wrapper itself raises: the configuration `assert` and the
`keys.extend(None)` TypeError when `groups` is left at its `None` default. -/
inductive PyError where
  | assertionError
  | typeError
deriving DecidableEq, Repr

/-- Outcome of one call of the wrapped function: a wrapper-level crash, an
exception propagated from the computation, or a returned value together with
whether the computation was invoked; each case carries the resulting store. -/
inductive RunResult (ε : Type) where
  | crash : PyError → Store → RunResult ε
  | raised : ε → Store → RunResult ε
  | value : PyVal → Bool → Store → RunResult ε

/-- The store after the call. -/
def RunResult.store {ε : Type} : RunResult ε → Store
  | .crash _ s => s
  | .raised _ s => s
  | .value _ _ s => s

/-- Whether the wrapped computation was entered (the debug call counter
increments exactly when this is true and `debug` is set). -/
def RunResult.invoked {ε : Type} : RunResult ε → Bool
  | .crash _ _ => false
  | .raised _ _ => true
  | .value _ i _ => i

/-- The returned value, when the call returned one. -/
def RunResult.retVal {ε : Type} : RunResult ε → Option PyVal
  | .value v _ _ => some v
  | _ => none

/-- Python truthiness of the optional string parameters (`bool(key)`):
`None` and the empty string are falsy. -/
def truthyOpt : Option String → Bool
  | none => false
  | some s => !(s == "")

/-- One call of the decorated function (`wrapper(*a, **kw)` in the source),
acting on store `s` with uuid stream `u`.  Mirrors the source line by line:
the `assert bool(key) != bool(arg_key)`; `keys = [arg_key % a] if key is
None else [key]`; `keys.extend(groups)` (TypeError when `groups` is `None`);
one `get_many`; `cache_value = multi_result.pop(key, None)` — note the
literal decorator parameter `key`, which is Python `None` in the `arg_key`
branch, so there the pop finds nothing and the final `marker_values[key] =
cache_value` stores the envelope under a key django renders as `"None"`;
marker minting for falsy fetched values; the malformedness and staleness
checks; and on re-evaluation one `set_many` of the new envelope plus every
fetched group marker. -/
def wrapper {ε : Type} (cfg : Config) (u : Nat → String)
    (func : List String → Except ε PyVal) (a : List String) (s : Store) :
    RunResult ε :=
  if (truthyOpt cfg.key != truthyOpt cfg.arg_key) = false then
    .crash .assertionError s
  else
    match cfg.groups with
    | none => .crash .typeError s
    | some groups =>
      let keys := (match cfg.key with
        | none => [pyFormat (cfg.arg_key.getD "") a]
        | some k => [k]) ++ groups
      let fetched := get_many s keys
      let cache_value : Option PyVal := match cfg.key with
        | some k => dget fetched k
        | none => none
      let multi_result := match cfg.key with
        | some k => dremove fetched k
        | none => fetched
      let marker_values := mintMarkers u multi_result 0
      let recompute : RunResult ε :=
        match func a with
        | .error e => .raised e s
        | .ok v =>
          let new_cache_value := dset marker_values "value" v
          let store_key := match cfg.key with
            | some k => k
            | none => "None"
          .value v true
            (set_many s (dset marker_values store_key (.vDict new_cache_value)))
      match cache_value with
      | some (.vDict cv) =>
        if dmem cv "value" then
          if staleCheck marker_values cv then recompute
          else .value (pyGet cv "value") false s
        else recompute
      | _ => recompute

/-- The dict comprehension of `expire_group`:
`{group_name: _make_marker_value() for group_name in group_names}`, each
iteration drawing the next token from the uuid stream. -/
def expireDictAux (u : Nat → String) : List String → Nat → PyDict → PyDict
  | [], _, acc => acc
  | g :: rest, n, acc => expireDictAux u rest (n + 1) (dset acc g (.vStr (u n)))

/-- `expire_group(*group_names)`: mint one fresh marker per group name and
write them with a single `set_many`. -/
def expire_group (u : Nat → String) (group_names : List String) (s : Store) :
    Store :=
  set_many s (expireDictAux u group_names 0 [])

/-! ### Association list (Python dict) lemmas -/

/-- The key list of a dict. -/
def dkeys (d : PyDict) : List String := d.map Prod.fst

/-- All dicts this development manipulates have pairwise distinct keys,
matching Python dict semantics. -/
def NodupKeys (d : PyDict) : Prop := (dkeys d).Nodup

@[simp]
theorem dget_nil (x : String) : dget [] x = none := rfl

@[simp]
theorem dget_cons (k : String) (v : PyVal) (rest : PyDict) (x : String) :
    dget ((k, v) :: rest) x = if x = k then some v else dget rest x := rfl

@[simp]
theorem dkeys_nil : dkeys [] = [] := rfl

@[simp]
theorem dkeys_cons (k : String) (v : PyVal) (rest : PyDict) :
    dkeys ((k, v) :: rest) = k :: dkeys rest := rfl

@[simp]
theorem nodupKeys_nil : NodupKeys [] := List.nodup_nil

theorem nodupKeys_cons (k : String) (v : PyVal) (rest : PyDict) :
    NodupKeys ((k, v) :: rest) ↔ k ∉ dkeys rest ∧ NodupKeys rest := by
  simp [NodupKeys]

@[simp]
theorem dget_dset_self (d : PyDict) (x : String) (w : PyVal) :
    dget (dset d x w) x = some w := by
  induction d with
  | nil => simp [dset]
  | cons p rest ih =>
    obtain ⟨k, v⟩ := p
    rcases eq_or_ne x k with rfl | hx
    · simp [dset]
    · simp [dset, hx, ih]

theorem dget_dset_ne (d : PyDict) (x y : String) (w : PyVal) (h : ¬ y = x) :
    dget (dset d x w) y = dget d y := by
  induction d with
  | nil => simp [dset, h]
  | cons p rest ih =>
    obtain ⟨k, v⟩ := p
    rcases eq_or_ne x k with rfl | hx
    · simp [dset, h]
    · rcases eq_or_ne y k with rfl | hy
      · simp [dset, hx]
      · simp [dset, hx, hy, ih]

theorem dget_dremove_ne (d : PyDict) (x y : String) (h : ¬ y = x) :
    dget (dremove d x) y = dget d y := by
  induction d with
  | nil => simp [dremove]
  | cons p rest ih =>
    obtain ⟨k, v⟩ := p
    rcases eq_or_ne x k with rfl | hx
    · simp [dremove, h]
    · rcases eq_or_ne y k with rfl | hy
      · simp [dremove, hx]
      · simp [dremove, hx, hy, ih]

theorem mem_dkeys_of_dget (d : PyDict) (x : String) (w : PyVal)
    (h : dget d x = some w) : x ∈ dkeys d := by
  induction d with
  | nil => simp [dget] at h
  | cons p rest ih =>
    obtain ⟨k, v⟩ := p
    rcases eq_or_ne x k with rfl | hx
    · simp
    · simp only [dget_cons, if_neg hx] at h
      simp [ih h]

theorem dget_eq_none_of_not_mem (d : PyDict) (x : String)
    (h : x ∉ dkeys d) : dget d x = none := by
  cases hd : dget d x with
  | none => rfl
  | some w => exact absurd (mem_dkeys_of_dget d x w hd) h

theorem dget_dremove_self (d : PyDict) (x : String) (h : NodupKeys d) :
    dget (dremove d x) x = none := by
  induction d with
  | nil => simp [dremove]
  | cons p rest ih =>
    obtain ⟨k, v⟩ := p
    rw [nodupKeys_cons] at h
    rcases eq_or_ne x k with rfl | hx
    · rw [dremove, if_pos rfl]
      exact dget_eq_none_of_not_mem rest x h.1
    · simp [dremove, hx, ih h.2]

theorem mem_of_dget (d : PyDict) (x : String) (w : PyVal)
    (h : dget d x = some w) : (x, w) ∈ d := by
  induction d with
  | nil => simp [dget] at h
  | cons p rest ih =>
    obtain ⟨k, v⟩ := p
    rcases eq_or_ne x k with rfl | hx
    · rw [dget_cons, if_pos rfl] at h
      injection h with h
      subst h
      exact List.mem_cons_self _ _
    · simp only [dget_cons, if_neg hx] at h
      exact List.mem_cons_of_mem _ (ih h)

theorem dget_of_mem_nodup (d : PyDict) (x : String) (w : PyVal)
    (hd : NodupKeys d) (h : (x, w) ∈ d) : dget d x = some w := by
  induction d with
  | nil => simp at h
  | cons p rest ih =>
    obtain ⟨k, v⟩ := p
    rw [nodupKeys_cons] at hd
    rcases List.mem_cons.mp h with h1 | h2
    · obtain ⟨rfl, rfl⟩ := Prod.mk.injEq _ _ _ _ ▸ h1
      simp
    · have hxk : ¬ x = k := by
        rintro rfl
        exact hd.1 (List.mem_map.mpr ⟨(x, w), h2, rfl⟩)
      simp [hxk, ih hd.2 h2]

theorem mem_dkeys_dset (d : PyDict) (x y : String) (w : PyVal) :
    y ∈ dkeys (dset d x w) ↔ y ∈ dkeys d ∨ y = x := by
  induction d with
  | nil => simp [dset, dkeys]
  | cons p rest ih =>
    obtain ⟨k, v⟩ := p
    rcases eq_or_ne x k with rfl | hx
    · rw [show dset ((x, v) :: rest) x w = (x, w) :: rest by rw [dset, if_pos rfl]]
      simp only [dkeys_cons, List.mem_cons]
      tauto
    · simp only [dset, if_neg hx, dkeys_cons, List.mem_cons, ih]
      tauto

theorem nodup_dset (d : PyDict) (x : String) (w : PyVal)
    (h : NodupKeys d) : NodupKeys (dset d x w) := by
  induction d with
  | nil => simp [dset, NodupKeys, dkeys]
  | cons p rest ih =>
    obtain ⟨k, v⟩ := p
    rw [nodupKeys_cons] at h
    rcases eq_or_ne x k with rfl | hx
    · rw [dset, if_pos rfl, nodupKeys_cons]
      exact h
    · rw [dset, if_neg hx, nodupKeys_cons]
      refine ⟨fun hmem => ?_, ih h.2⟩
      rcases (mem_dkeys_dset rest x k w).mp hmem with h1 | h2
      · exact h.1 h1
      · exact hx h2.symm

theorem dremove_sublist (d : PyDict) (x : String) :
    List.Sublist (dremove d x) d := by
  induction d with
  | nil => simp [dremove]
  | cons p rest ih =>
    obtain ⟨k, v⟩ := p
    rcases eq_or_ne x k with rfl | hx
    · rw [dremove, if_pos rfl]
      exact List.sublist_cons_self _ _
    · rw [dremove, if_neg hx]
      exact List.Sublist.cons₂ _ ih

theorem nodup_dremove (d : PyDict) (x : String)
    (h : NodupKeys d) : NodupKeys (dremove d x) := by
  exact List.Nodup.sublist (List.Sublist.map Prod.fst (dremove_sublist d x)) h

/-! ### Backend (`get_many` / `set_many`) lemmas -/

/-- The value `get_many` reports for a key: present and not `None`. -/
def fetchVal (s : Store) (x : String) : Option PyVal :=
  match s x with
  | some v => if v = .vNone then none else some v
  | none => none

theorem getManyAux_dget (s : Store) (keys : List String) (acc : PyDict)
    (x : String) :
    dget (getManyAux s keys acc) x =
      if x ∈ keys ∧ (fetchVal s x).isSome then fetchVal s x else dget acc x := by
  induction keys generalizing acc with
  | nil => simp [getManyAux]
  | cons k rest ih =>
    have step : getManyAux s (k :: rest) acc =
        getManyAux s rest (match s k with
          | some v => if v = .vNone then acc else dset acc k v
          | none => acc) := rfl
    rw [step, ih]
    by_cases hrest : x ∈ rest ∧ (fetchVal s x).isSome
    · rw [if_pos hrest, if_pos ⟨List.mem_cons_of_mem _ hrest.1, hrest.2⟩]
    · rw [if_neg hrest]
      rcases eq_or_ne x k with rfl | hxk
      · cases hsk : s x with
        | none =>
          have hf : fetchVal s x = none := by simp [fetchVal, hsk]
          simp [hsk, hf]
        | some v =>
          by_cases hv : v = .vNone
          · subst hv
            have hf : fetchVal s x = none := by simp [fetchVal, hsk]
            simp [hsk, hf]
          · have hf : fetchVal s x = some v := by simp [fetchVal, hsk, hv]
            simp [hsk, hv, hf]
      · have hcond : ¬ (x ∈ k :: rest ∧ (fetchVal s x).isSome) := by
          rintro ⟨hm, hs⟩
          rcases List.mem_cons.mp hm with h1 | h2
          · exact hxk h1
          · exact hrest ⟨h2, hs⟩
        rw [if_neg hcond]
        cases hsk : s k with
        | none => rfl
        | some v =>
          by_cases hv : v = .vNone
          · subst hv
            simp [hsk]
          · simp only [hsk, if_neg hv]
            exact dget_dset_ne _ _ _ _ hxk

theorem get_many_dget (s : Store) (keys : List String) (x : String) :
    dget (get_many s keys) x = if x ∈ keys then fetchVal s x else none := by
  rw [get_many, getManyAux_dget]
  by_cases hm : x ∈ keys
  · cases hf : fetchVal s x with
    | none => simp [hm, hf]
    | some v => simp [hm, hf]
  · simp [hm]

theorem nodup_getManyAux (s : Store) (keys : List String) (acc : PyDict)
    (h : NodupKeys acc) : NodupKeys (getManyAux s keys acc) := by
  induction keys generalizing acc with
  | nil => exact h
  | cons k rest ih =>
    have step : getManyAux s (k :: rest) acc =
        getManyAux s rest (match s k with
          | some v => if v = .vNone then acc else dset acc k v
          | none => acc) := rfl
    rw [step]
    apply ih
    cases hsk : s k with
    | none => exact h
    | some v =>
      by_cases hv : v = .vNone
      · subst hv; simpa using h
      · simp only [if_neg hv]
        exact nodup_dset _ _ _ h

theorem nodup_get_many (s : Store) (keys : List String) :
    NodupKeys (get_many s keys) :=
  nodup_getManyAux s keys [] nodupKeys_nil

theorem getManyAux_congr (s s' : Store) (keys : List String)
    (h : ∀ x ∈ keys, s x = s' x) :
    ∀ acc : PyDict, getManyAux s keys acc = getManyAux s' keys acc := by
  induction keys with
  | nil => intro acc; rfl
  | cons k rest ih =>
    intro acc
    have hk : s k = s' k := h k (List.mem_cons_self _ _)
    have step : getManyAux s (k :: rest) acc =
        getManyAux s rest (match s k with
          | some v => if v = .vNone then acc else dset acc k v
          | none => acc) := rfl
    have step' : getManyAux s' (k :: rest) acc =
        getManyAux s' rest (match s' k with
          | some v => if v = .vNone then acc else dset acc k v
          | none => acc) := rfl
    rw [step, step', hk, ih (fun x hx => h x (List.mem_cons_of_mem _ hx))]

theorem get_many_congr (s s' : Store) (keys : List String)
    (h : ∀ x ∈ keys, s x = s' x) : get_many s keys = get_many s' keys :=
  getManyAux_congr s s' keys h []

theorem set_many_apply_of_none (s : Store) (d : PyDict) (x : String)
    (h : dget d x = none) : set_many s d x = s x := by
  induction d generalizing s with
  | nil => rfl
  | cons p rest ih =>
    obtain ⟨k, v⟩ := p
    rw [dget_cons] at h
    rcases eq_or_ne x k with rfl | hx
    · rw [if_pos rfl] at h
      exact absurd h (by simp)
    · rw [if_neg hx] at h
      rw [set_many, ih _ h]
      simp [Store.set, hx]

theorem set_many_apply_of_some (s : Store) (d : PyDict) (x : String) (v : PyVal)
    (hd : NodupKeys d) (h : dget d x = some v) : set_many s d x = some v := by
  induction d generalizing s with
  | nil => simp [dget] at h
  | cons p rest ih =>
    obtain ⟨k, w⟩ := p
    rw [nodupKeys_cons] at hd
    rw [dget_cons] at h
    rcases eq_or_ne x k with rfl | hx
    · rw [if_pos rfl] at h
      injection h with h
      subst h
      rw [set_many,
        set_many_apply_of_none _ _ _ (dget_eq_none_of_not_mem rest x hd.1)]
      simp [Store.set]
    · rw [if_neg hx] at h
      rw [set_many]
      exact ih _ hd.2 h

/-! ### Marker minting lemmas -/

theorem dkeys_mint (u : Nat → String) :
    ∀ (d : PyDict) (n : Nat), dkeys (mintMarkers u d n) = dkeys d := by
  intro d
  induction d with
  | nil => intro n; rfl
  | cons p rest ih =>
    obtain ⟨g, v⟩ := p
    intro n
    by_cases hv : v.truthy
    · simp [mintMarkers, hv, ih]
    · simp [mintMarkers, hv, ih]

theorem nodup_mint (u : Nat → String) (d : PyDict) (n : Nat)
    (h : NodupKeys d) : NodupKeys (mintMarkers u d n) := by
  rw [NodupKeys, dkeys_mint]
  exact h

theorem mint_dget_none_iff (u : Nat → String) (g : String) :
    ∀ (d : PyDict) (n : Nat),
      (dget (mintMarkers u d n) g = none ↔ dget d g = none) := by
  intro d
  induction d with
  | nil => intro n; simp [mintMarkers]
  | cons p rest ih =>
    obtain ⟨k, v⟩ := p
    intro n
    rcases eq_or_ne g k with rfl | hg
    · by_cases hv : v.truthy <;> simp [mintMarkers, hv]
    · by_cases hv : v.truthy <;> simp [mintMarkers, hv, hg, ih]

theorem mint_dget_truthy (u : Nat → String) (g : String) (w : PyVal)
    (hw : w.truthy = true) :
    ∀ (d : PyDict) (n : Nat), dget d g = some w →
      dget (mintMarkers u d n) g = some w := by
  intro d
  induction d with
  | nil => intro n h; simp [dget] at h
  | cons p rest ih =>
    obtain ⟨k, v⟩ := p
    intro n h
    rw [dget_cons] at h
    rcases eq_or_ne g k with rfl | hg
    · rw [if_pos rfl] at h
      injection h with h
      subst h
      simp [mintMarkers, hw]
    · rw [if_neg hg] at h
      by_cases hv : v.truthy <;> simp [mintMarkers, hv, hg, ih _ h]

theorem mint_dget_inv (u : Nat → String) (g : String) (w : PyVal) :
    ∀ (d : PyDict) (n : Nat), dget (mintMarkers u d n) g = some w →
      ∃ w₀, dget d g = some w₀ ∧
        ((w₀.truthy = true ∧ w = w₀) ∨
         (w₀.truthy = false ∧ ∃ j, w = .vStr (u j))) := by
  intro d
  induction d with
  | nil => intro n h; simp [mintMarkers, dget] at h
  | cons p rest ih =>
    obtain ⟨k, v⟩ := p
    intro n h
    by_cases hv : v.truthy
    · rw [show mintMarkers u ((k, v) :: rest) n = (k, v) :: mintMarkers u rest n
          by simp [mintMarkers, hv]] at h
      rw [dget_cons] at h
      rcases eq_or_ne g k with rfl | hg
      · rw [if_pos rfl] at h
        injection h with h
        exact ⟨v, by simp, Or.inl ⟨hv, h.symm⟩⟩
      · rw [if_neg hg] at h
        obtain ⟨w₀, h1, h2⟩ := ih _ h
        exact ⟨w₀, by simp [hg, h1], h2⟩
    · rw [show mintMarkers u ((k, v) :: rest) n =
            (k, .vStr (u n)) :: mintMarkers u rest (n + 1)
          by simp [mintMarkers, hv]] at h
      rw [dget_cons] at h
      rcases eq_or_ne g k with rfl | hg
      · rw [if_pos rfl] at h
        injection h with h
        exact ⟨v, by simp, Or.inr ⟨Bool.eq_false_iff.mpr hv, n, h.symm⟩⟩
      · rw [if_neg hg] at h
        obtain ⟨w₀, h1, h2⟩ := ih _ h
        exact ⟨w₀, by simp [hg, h1], h2⟩

/-! ### Staleness check lemmas -/

theorem staleCheck_eq_false_iff (mv cv : PyDict) :
    staleCheck mv cv = false ↔ ∀ p ∈ mv, p.2 = pyGet cv p.1 := by
  simp [staleCheck, List.any_eq_false]

theorem staleCheck_eq_true_of (mv cv : PyDict) (g : String) (w : PyVal)
    (hmem : (g, w) ∈ mv) (hne : ¬ w = pyGet cv g) : staleCheck mv cv = true := by
  rw [staleCheck, List.any_eq_true]
  exact ⟨(g, w), hmem, by simpa using hne⟩

/-! ### `expire_group` lemmas -/

theorem expireDictAux_dget_not_mem (u : Nat → String) (x : String) :
    ∀ (names : List String) (n : Nat) (acc : PyDict), x ∉ names →
      dget (expireDictAux u names n acc) x = dget acc x := by
  intro names
  induction names with
  | nil => intro n acc _; rfl
  | cons g rest ih =>
    intro n acc h
    rw [expireDictAux, ih _ _ (fun hm => h (List.mem_cons_of_mem _ hm))]
    exact dget_dset_ne _ _ _ _ (fun he => h (he ▸ List.mem_cons_self _ _))

/-- Frame property of `expire_group`: keys outside the expired group names
are untouched. -/
theorem expire_group_not_mem (u : Nat → String) (names : List String)
    (s : Store) (x : String) (h : x ∉ names) :
    expire_group u names s x = s x := by
  rw [expire_group]
  apply set_many_apply_of_none
  rw [expireDictAux_dget_not_mem u x names 0 [] h]
  rfl

/-- Expiring a single group overwrites exactly its marker. -/
theorem expire_group_single (u : Nat → String) (g : String) (s : Store) :
    expire_group u [g] s = Store.set s g (.vStr (u 0)) := rfl

/-! ### The literal-key call, restructured for reasoning -/

/-- The `marker_values` dict computed by a call with literal key `k` and
groups `gs`: the fetched entries minus the cache key, falsy values replaced
by minted markers. -/
def callMV (k : String) (gs : List String) (u : Nat → String) (s : Store) :
    PyDict :=
  mintMarkers u (dremove (get_many s (k :: gs)) k) 0

/-- Whether a literal-key call takes the re-evaluation branch. -/
def isStale (k : String) (gs : List String) (u : Nat → String) (s : Store) :
    Bool :=
  match dget (get_many s (k :: gs)) k with
  | some (.vDict cv) =>
      if dmem cv "value" then staleCheck (callMV k gs u s) cv else true
  | _ => true

/-- The store after a re-evaluating literal-key call whose computation
returned `v`. -/
def postStore (k : String) (gs : List String) (u : Nat → String) (v : PyVal)
    (s : Store) : Store :=
  set_many s
    (dset (callMV k gs u s) k (.vDict (dset (callMV k gs u s) "value" v)))

/-- The result of the re-evaluation branch of a literal-key call. -/
def recomputeRes {ε : Type} (k : String) (gs : List String) (u : Nat → String)
    (func : List String → Except ε PyVal) (a : List String) (s : Store) :
    RunResult ε :=
  match func a with
  | .error e => .raised e s
  | .ok v => .value v true (postStore k gs u v s)

/-- A literal-key call in direct form (provably equal to `wrapper` on a
literal-key configuration). -/
def literalCall {ε : Type} (k : String) (gs : List String) (u : Nat → String)
    (func : List String → Except ε PyVal) (a : List String) (s : Store) :
    RunResult ε :=
  match dget (get_many s (k :: gs)) k with
  | some (.vDict cv) =>
      if dmem cv "value" then
        if staleCheck (callMV k gs u s) cv then recomputeRes k gs u func a s
        else .value (pyGet cv "value") false s
      else recomputeRes k gs u func a s
  | _ => recomputeRes k gs u func a s

theorem wrapper_eq_literalCall' {ε : Type} (k : String) (arg? : Option String)
    (gs : List String) (dbg : Bool) (u : Nat → String)
    (func : List String → Except ε PyVal) (a : List String) (s : Store)
    (hcond : (truthyOpt (some k) != truthyOpt arg?) = true) :
    wrapper ⟨some k, arg?, some gs, dbg⟩ u func a s =
      literalCall k gs u func a s := by
  rw [wrapper, if_neg (by simp [hcond])]
  rfl

theorem wrapper_eq_literalCall {ε : Type} (k : String) (gs : List String)
    (dbg : Bool) (u : Nat → String) (func : List String → Except ε PyVal)
    (a : List String) (s : Store) (hk : ¬ k = "") :
    wrapper ⟨some k, none, some gs, dbg⟩ u func a s =
      literalCall k gs u func a s := by
  apply wrapper_eq_literalCall'
  simp [truthyOpt, beq_eq_false_iff_ne.mpr hk]

theorem fetchVal_some_inv (s : Store) (x : String) (v : PyVal)
    (h : fetchVal s x = some v) : s x = some v ∧ ¬ v = .vNone := by
  rw [fetchVal] at h
  cases hs : s x with
  | none =>
    rw [hs] at h
    exact Option.noConfusion h
  | some w =>
    simp only [hs] at h
    by_cases hw : w = .vNone
    · rw [if_pos hw] at h
      exact Option.noConfusion h
    · rw [if_neg hw] at h
      injection h with h
      subst h
      exact ⟨rfl, hw⟩

theorem literalCall_stale {ε : Type} (k : String) (gs : List String)
    (u : Nat → String) (func : List String → Except ε PyVal) (a : List String)
    (s : Store) (h : isStale k gs u s = true) :
    literalCall k gs u func a s = recomputeRes k gs u func a s := by
  rw [isStale] at h
  rw [literalCall]
  cases hdg : dget (get_many s (k :: gs)) k with
  | none => rfl
  | some v =>
    cases v with
    | vDict cv =>
      simp only [hdg] at h
      by_cases hmem : dmem cv "value"
      · rw [if_pos hmem] at h
        simp [hmem, h]
      · simp [hmem]
    | vStr t => rfl
    | vInt n => rfl
    | vNone => rfl

theorem literalCall_fresh {ε : Type} (k : String) (gs : List String)
    (u : Nat → String) (func : List String → Except ε PyVal) (a : List String)
    (s : Store) (h : isStale k gs u s = false) :
    ∃ cv, dget (get_many s (k :: gs)) k = some (.vDict cv) ∧
      dmem cv "value" = true ∧ staleCheck (callMV k gs u s) cv = false ∧
      literalCall k gs u func a s = .value (pyGet cv "value") false s := by
  rw [isStale] at h
  cases hdg : dget (get_many s (k :: gs)) k with
  | none => simp [hdg] at h
  | some v =>
    cases v with
    | vDict cv =>
      simp only [hdg] at h
      by_cases hmem : dmem cv "value"
      · rw [if_pos hmem] at h
        refine ⟨cv, rfl, hmem, h, ?_⟩
        rw [literalCall]
        simp only [hdg]
        simp [hmem, h]
      · rw [if_neg hmem] at h
        exact absurd h (by simp)
    | vStr t => simp [hdg] at h
    | vInt n => simp [hdg] at h
    | vNone => simp [hdg] at h

theorem callMV_nodup (k : String) (gs : List String) (u : Nat → String)
    (s : Store) : NodupKeys (callMV k gs u s) :=
  nodup_mint _ _ _ (nodup_dremove _ _ (nodup_get_many _ _))

theorem callMV_dget_k (k : String) (gs : List String) (u : Nat → String)
    (s : Store) : dget (callMV k gs u s) k = none := by
  rw [callMV]
  exact (mint_dget_none_iff u k _ _).mpr
    (dget_dremove_self _ _ (nodup_get_many _ _))

theorem callMV_dget_of (k : String) (gs : List String) (u : Nat → String)
    (s : Store) (g : String) (w : PyVal) (hg : g ∈ gs) (hgk : ¬ g = k)
    (hsg : s g = some w) (hnn : ¬ w = .vNone) (hw : w.truthy = true) :
    dget (callMV k gs u s) g = some w := by
  rw [callMV]
  apply mint_dget_truthy u g w hw
  rw [dget_dremove_ne _ _ _ hgk, get_many_dget,
    if_pos (List.mem_cons_of_mem _ hg)]
  simp [fetchVal, hsg, hnn]

theorem callMV_dget_inv (k : String) (gs : List String) (u : Nat → String)
    (s : Store) (g : String) (w : PyVal)
    (h : dget (callMV k gs u s) g = some w) :
    ¬ g = k ∧ g ∈ gs ∧ ∃ w₀, s g = some w₀ ∧ ¬ w₀ = .vNone ∧
      ((w₀.truthy = true ∧ w = w₀) ∨
       (w₀.truthy = false ∧ ∃ j, w = .vStr (u j))) := by
  rw [callMV] at h
  obtain ⟨w₀, h1, h2⟩ := mint_dget_inv u g w _ _ h
  have hgk : ¬ g = k := by
    rintro rfl
    rw [dget_dremove_self _ _ (nodup_get_many _ _)] at h1
    exact Option.noConfusion h1
  rw [dget_dremove_ne _ _ _ hgk, get_many_dget] at h1
  by_cases hm : g ∈ k :: gs
  · rw [if_pos hm] at h1
    have hmem : g ∈ gs := by
      rcases List.mem_cons.mp hm with h3 | h3
      · exact absurd h3 hgk
      · exact h3
    rw [fetchVal] at h1
    cases hsg : s g with
    | none =>
      rw [hsg] at h1
      exact Option.noConfusion h1
    | some v =>
      simp only [hsg] at h1
      by_cases hv : v = .vNone
      · rw [if_pos hv] at h1
        exact Option.noConfusion h1
      · rw [if_neg hv] at h1
        injection h1 with h1
        subst h1
        exact ⟨hgk, hmem, v, rfl, hv, h2⟩
  · rw [if_neg hm] at h1
    exact Option.noConfusion h1

theorem callMV_dget_none_inv (k : String) (gs : List String) (u : Nat → String)
    (s : Store) (g : String) (hg : g ∈ gs) (hgk : ¬ g = k)
    (h : dget (callMV k gs u s) g = none) : fetchVal s g = none := by
  rw [callMV, mint_dget_none_iff, dget_dremove_ne _ _ _ hgk, get_many_dget,
    if_pos (List.mem_cons_of_mem _ hg)] at h
  exact h

theorem postStore_k (k : String) (gs : List String) (u : Nat → String)
    (v : PyVal) (s : Store) :
    postStore k gs u v s k =
      some (.vDict (dset (callMV k gs u s) "value" v)) := by
  rw [postStore]
  exact set_many_apply_of_some _ _ _ _
    (nodup_dset _ _ _ (callMV_nodup k gs u s)) (dget_dset_self _ _ _)

theorem postStore_ne_of_some (k : String) (gs : List String) (u : Nat → String)
    (v : PyVal) (s : Store) (x : String) (w : PyVal) (hx : ¬ x = k)
    (h : dget (callMV k gs u s) x = some w) : postStore k gs u v s x = some w := by
  rw [postStore]
  apply set_many_apply_of_some _ _ _ _ (nodup_dset _ _ _ (callMV_nodup _ _ _ _))
  rw [dget_dset_ne _ _ _ _ hx]
  exact h

theorem postStore_ne_of_none (k : String) (gs : List String) (u : Nat → String)
    (v : PyVal) (s : Store) (x : String) (hx : ¬ x = k)
    (h : dget (callMV k gs u s) x = none) : postStore k gs u v s x = s x := by
  rw [postStore]
  apply set_many_apply_of_none
  rw [dget_dset_ne _ _ _ _ hx]
  exact h

theorem callMV_congr (k : String) (gs : List String) (u : Nat → String)
    (s s' : Store) (h : ∀ x ∈ k :: gs, s x = s' x) :
    callMV k gs u s = callMV k gs u s' := by
  rw [callMV, callMV, get_many_congr _ _ _ h]

theorem isStale_congr (k : String) (gs : List String) (u : Nat → String)
    (s s' : Store) (h : ∀ x ∈ k :: gs, s x = s' x) :
    isStale k gs u s = isStale k gs u s' := by
  rw [isStale, isStale, get_many_congr _ _ _ h, callMV_congr _ _ _ _ _ h]

/-- The central hit lemma: any literal-key call made on the store left by a
re-evaluating call (same key and groups, unchanged store in between) is a
cache hit, returns the value cached by that re-evaluation, does not invoke
the computation and writes nothing. -/
theorem literalCall_hit_postStore {ε : Type} (k : String) (gs : List String)
    (u u' : Nat → String) (v : PyVal) (s : Store)
    (func : List String → Except ε PyVal) (a : List String)
    (hval : "value" ∉ gs) (hu : ∀ j, ¬ u j = "") :
    literalCall k gs u' func a (postStore k gs u v s) =
      .value v false (postStore k gs u v s) := by
  have henvk : postStore k gs u v s k =
      some (.vDict (dset (callMV k gs u s) "value" v)) := postStore_k k gs u v s
  have hfetchk : dget (get_many (postStore k gs u v s) (k :: gs)) k =
      some (.vDict (dset (callMV k gs u s) "value" v)) := by
    rw [get_many_dget, if_pos (List.mem_cons_self _ _)]
    simp [fetchVal, henvk]
  have hstale : staleCheck (callMV k gs u' (postStore k gs u v s))
      (dset (callMV k gs u s) "value" v) = false := by
    rw [staleCheck_eq_false_iff]
    rintro ⟨g, w⟩ hmem
    have hdg : dget (callMV k gs u' (postStore k gs u v s)) g = some w :=
      dget_of_mem_nodup _ _ _ (callMV_nodup _ _ _ _) hmem
    obtain ⟨hgk, hggs, w₀, hs2g, hnn, hdisj⟩ := callMV_dget_inv _ _ _ _ _ _ hdg
    have hgval : ¬ g = "value" := fun he => hval (he ▸ hggs)
    cases hmv1 : dget (callMV k gs u s) g with
    | none =>
      exfalso
      have hfn : fetchVal s g = none :=
        callMV_dget_none_inv _ _ _ _ _ hggs hgk hmv1
      have hsg2 : postStore k gs u v s g = s g :=
        postStore_ne_of_none _ _ _ _ _ _ hgk hmv1
      rw [hsg2] at hs2g
      rw [fetchVal, hs2g] at hfn
      simp [hnn] at hfn
    | some m =>
      have hsg2 : postStore k gs u v s g = some m :=
        postStore_ne_of_some _ _ _ _ _ _ _ hgk hmv1
      have hmt : m.truthy = true := by
        obtain ⟨_, _, m₀, hsgm, hmnn, hmd⟩ := callMV_dget_inv _ _ _ _ _ _ hmv1
        rcases hmd with ⟨ht, rfl⟩ | ⟨hf, j, rfl⟩
        · exact ht
        · have hne := beq_eq_false_iff_ne.mpr (hu j)
          simp [PyVal.truthy, hne]
      rw [hsg2] at hs2g
      injection hs2g with hw₀
      rcases hdisj with ⟨_, rfl⟩ | ⟨hf, _⟩
      · show w = pyGet (dset (callMV k gs u s) "value" v) g
        rw [pyGet, dget_dset_ne _ _ _ _ hgval, hmv1, Option.getD_some]
        exact hw₀.symm
      · rw [← hw₀, hmt] at hf
        exact Bool.noConfusion hf
  rw [literalCall]
  simp only [hfetchk]
  rw [if_pos (show dmem (dset (callMV k gs u s) "value" v) "value" = true by
    rw [dmem, dget_dset_self]; rfl)]
  rw [if_neg (by simp [hstale])]
  rw [pyGet, dget_dset_self, Option.getD_some]

/-- On an `arg_key` configuration, a raising computation propagates with the
store untouched (the `arg_key` path always re-evaluates). -/
theorem wrapper_argkey_raised {ε : Type} (t : String) (gs : List String)
    (dbg : Bool) (u : Nat → String) (func : List String → Except ε PyVal)
    (a : List String) (s : Store) (e : ε)
    (ht : ¬ t = "") (hf : func a = .error e) :
    wrapper ⟨none, some t, some gs, dbg⟩ u func a s = .raised e s := by
  have hbeq : (t == "") = false := beq_eq_false_iff_ne.mpr ht
  rw [wrapper, if_neg (by simp [truthyOpt, hbeq])]
  simp only [hf]

/-! ### Concrete objects used in closed evaluations -/

/-- A concrete uuid stream. -/
def uStreamA : Nat → String := fun _ => "A"

/-- A second concrete uuid stream. -/
def uStreamB : Nat → String := fun _ => "B"

/-- A third concrete uuid stream. -/
def uStreamC : Nat → String := fun _ => "C"

theorem uStreamA_ne (j : Nat) : ¬ uStreamA j = "" := by simp [uStreamA]

theorem uStreamB_ne (j : Nat) : ¬ uStreamB j = "" := by simp [uStreamB]

/-- A computation always returning the string `"v"`. -/
def fOkV : List String → Except String PyVal := fun _ => .ok (.vStr "v")

/-- A computation always returning `None`. -/
def fNone : List String → Except String PyVal := fun _ => .ok .vNone

/-- A computation always returning the string `"new"`. -/
def fNew : List String → Except String PyVal := fun _ => .ok (.vStr "new")

/-- `@cached(arg_key='c:%s', groups=['g'], debug=True)`. -/
def argCfg : Config := ⟨none, some "c:%s", some ["g"], true⟩

/-- `@cached(key='k', groups=['g'], debug=True)`. -/
def litCfg : Config := ⟨some "k", none, some ["g"], true⟩

/-- `@cached(key='k', groups=[], debug=True)`. -/
def noGroupCfg : Config := ⟨some "k", none, some [], true⟩

/-- A store holding, under `'k'`, an envelope that records marker `"m1"` for
group `'g'`, while no marker is stored under `'g'` itself (simulating
eviction of the group marker). -/
def evictedStore : Store :=
  Store.set emptyStore "k" (.vDict [("g", .vStr "m1"), ("value", .vStr "v")])

/-! ### Claim theorems -/

/-- C2 (code bug): with the store holding an envelope for `'k'` that records
marker `"m1"` for group `'g'` while the marker under `'g'` is absent
(evicted), the call does NOT re-invoke the computation: it returns the old
cached value with the store unchanged (so no fresh marker is minted or
written).  This contradicts the claim that an absent group marker makes the
envelope stale; django's `get_many` omits missing keys, so the code's
"regenerate missing markers" comprehension, documented in its own comment,
never sees them. -/
theorem C2_missing_marker_code_eval :
    evictedStore "g" = none ∧
    wrapper litCfg uStreamA fNew [] evictedStore =
      .value (.vStr "v") false evictedStore :=
  ⟨rfl, rfl⟩

/-- C3 (code bug): for `@cached(arg_key='c:%s', groups=['g'], debug=True)`
called with argument `'1'`, the first call re-evaluates but stores the
envelope under the key django renders for Python `None` (because
`multi_result.pop(key, None)` and `marker_values[key] = cache_value` use the
literal `key` decorator parameter, which is `None` in the `arg_key` branch),
not under the derived key `'c:1'`; the repeated call therefore re-invokes
the computation again, contradicting the claim. -/
theorem C3_argkey_code_eval :
    (wrapper argCfg uStreamA fOkV ["1"] emptyStore).invoked = true ∧
    (wrapper argCfg uStreamA fOkV ["1"] emptyStore).store "c:1" = none ∧
    (wrapper argCfg uStreamA fOkV ["1"] emptyStore).store "None" =
      some (.vDict [("value", .vStr "v")]) ∧
    (wrapper argCfg uStreamB fOkV ["1"]
      ((wrapper argCfg uStreamA fOkV ["1"] emptyStore).store)).invoked = true :=
  ⟨rfl, rfl, rfl, rfl⟩

/-- C5 (code bug): a first call with literal key `'k'` and group `'g'` on an
empty store re-evaluates and writes the new envelope under `'k'`, but writes
NO marker under `'g'`: the group's marker was absent from the fetch, so the
minting comprehension never produced one, and the multi-set contains only
the envelope.  This contradicts the claim that every group's current marker
is written on every recomputation. -/
theorem C5_store_write_code_eval :
    (wrapper litCfg uStreamA fOkV [] emptyStore).invoked = true ∧
    (wrapper litCfg uStreamA fOkV [] emptyStore).store "k" =
      some (.vDict [("value", .vStr "v")]) ∧
    (wrapper litCfg uStreamA fOkV [] emptyStore).store "g" = none :=
  ⟨rfl, rfl, rfl⟩

/-- C9 (code bug): calling a function decorated with a valid literal key and
`groups` left at its default raises a TypeError (`keys.extend(None)`)
instead of operating as a pure point cache, contradicting the claim and the
spec signature `groups=[]`. -/
theorem C9_groups_default_crash :
    wrapper (⟨some "k", none, none, false⟩ : Config) uStreamA fOkV []
      emptyStore = .crash .typeError emptyStore :=
  rfl

/-- C1 (counterexample): for an `arg_key`-configured cached function in
group `'g'`, after `expire_group('g')` the next call re-invokes the
computation, but the call after that next one re-invokes it AGAIN (the
`arg_key` path never hits its cache), contradicting the claim that calls
after the next one return the cached value without recomputing. -/
theorem C1_counterexample :
    (wrapper argCfg uStreamB fOkV ["1"]
      (expire_group uStreamA ["g"] emptyStore)).invoked = true ∧
    (wrapper argCfg uStreamC fOkV ["1"]
      ((wrapper argCfg uStreamB fOkV ["1"]
        (expire_group uStreamA ["g"] emptyStore)).store)).invoked = true :=
  ⟨rfl, rfl⟩

/-- C8 (counterexample): a computation returning `None` IS cached: the first
call stores an envelope whose `value` slot is `None` under the key, and the
repeated call is served from the cache without re-invoking the computation,
contradicting the claim that a `None` result is never cached and that every
call recomputes. -/
theorem C8_counterexample :
    (wrapper noGroupCfg uStreamA fNone [] emptyStore).retVal = some .vNone ∧
    (wrapper noGroupCfg uStreamA fNone [] emptyStore).invoked = true ∧
    (wrapper noGroupCfg uStreamA fNone [] emptyStore).store "k" =
      some (.vDict [("value", .vNone)]) ∧
    wrapper noGroupCfg uStreamB fNone []
        ((wrapper noGroupCfg uStreamA fNone [] emptyStore).store) =
      .value .vNone false
        ((wrapper noGroupCfg uStreamA fNone [] emptyStore).store) :=
  ⟨rfl, rfl, rfl, rfl⟩

/-- C7: if the wrapped computation raises during a cached call (any
configuration that passes the key/arg-key assert and has a groups list),
either the exception propagates unchanged with the store exactly as before
the call, or the call was a cache hit that never invoked the computation,
again leaving the store untouched.  In both cases nothing is written. -/
theorem C7_raise_propagates {ε : Type} (key? arg? : Option String)
    (gs : List String) (dbg : Bool) (u : Nat → String)
    (func : List String → Except ε PyVal) (a : List String) (s : Store)
    (e : ε)
    (hconf : (truthyOpt key? != truthyOpt arg?) = true)
    (hf : func a = .error e) :
    wrapper ⟨key?, arg?, some gs, dbg⟩ u func a s = .raised e s ∨
    ∃ v, wrapper ⟨key?, arg?, some gs, dbg⟩ u func a s = .value v false s := by
  cases key? with
  | none =>
    cases arg? with
    | none => simp [truthyOpt] at hconf
    | some t =>
      have ht : ¬ t = "" := by
        intro he
        subst he
        simp [truthyOpt] at hconf
      exact Or.inl (wrapper_argkey_raised t gs dbg u func a s e ht hf)
  | some k =>
    rw [wrapper_eq_literalCall' k arg? gs dbg u func a s hconf]
    by_cases hs : isStale k gs u s
    · left
      rw [literalCall_stale _ _ _ _ _ _ hs, recomputeRes]
      simp only [hf]
    · right
      have hs0 : isStale k gs u s = false := by simpa using hs
      obtain ⟨cv, _, _, _, heq⟩ := literalCall_fresh k gs u func a s hs0
      exact ⟨pyGet cv "value", heq⟩

/-- Witness for C7 at a concrete raising computation. -/
theorem C7_witness :
    wrapper (⟨some "k", none, some ["g"], true⟩ : Config) uStreamA
        (fun _ => Except.error "boom") [] emptyStore =
      .raised "boom" emptyStore ∨
    ∃ v, wrapper (⟨some "k", none, some ["g"], true⟩ : Config) uStreamA
        (fun _ => Except.error "boom") [] emptyStore =
      .value v false emptyStore :=
  C7_raise_propagates (some "k") none ["g"] true uStreamA
    (fun _ => Except.error "boom") [] emptyStore "boom" (by decide) rfl

/-- C1 (amended): for a cached function configured with a literal key, after
`expire_group(G)` — `G` being any member of its group list — the next call
re-invokes the computation exactly once and stores a new envelope holding
the computed value under the key; any call after that next one (with any
uuid draws, computation and arguments) returns the cached value without
re-invoking and without writing, until a further invalidation. -/
theorem C1_group_invalidation {ε : Type} (k G : String) (gs : List String)
    (dbg : Bool) (u1 u2 u3 : Nat → String)
    (func func' : List String → Except ε PyVal) (a a' : List String)
    (s : Store) (v : PyVal)
    (hk : ¬ k = "") (hkgs : k ∉ gs) (hval : "value" ∉ gs) (hG : G ∈ gs)
    (hu1 : ¬ u1 0 = "") (hu2 : ∀ j, ¬ u2 j = "")
    (hf : func a = .ok v)
    (hfresh : ∀ d, s k = some (.vDict d) → ¬ pyGet d G = .vStr (u1 0)) :
    ∃ s₂ env,
      wrapper ⟨some k, none, some gs, dbg⟩ u2 func a
        (expire_group u1 [G] s) = .value v true s₂ ∧
      s₂ k = some (.vDict env) ∧ pyGet env "value" = v ∧
      wrapper ⟨some k, none, some gs, dbg⟩ u3 func' a' s₂ =
        .value v false s₂ := by
  have hGk : ¬ G = k := fun he => hkgs (he ▸ hG)
  have hkG : ¬ k = G := fun he => hGk he.symm
  have hs'G : expire_group u1 [G] s G = some (.vStr (u1 0)) := by
    rw [expire_group_single]
    simp [Store.set]
  have hs'k : expire_group u1 [G] s k = s k := by
    rw [expire_group_single]
    simp [Store.set, hkG]
  have hmvG : dget (callMV k gs u2 (expire_group u1 [G] s)) G =
      some (.vStr (u1 0)) := by
    apply callMV_dget_of _ _ _ _ _ _ hG hGk hs'G (by simp)
    simp [PyVal.truthy, beq_eq_false_iff_ne.mpr hu1]
  have hstale1 : isStale k gs u2 (expire_group u1 [G] s) = true := by
    rw [isStale]
    cases hdg : dget (get_many (expire_group u1 [G] s) (k :: gs)) k with
    | none => rfl
    | some w =>
      cases w with
      | vDict cv =>
        by_cases hmem : dmem cv "value"
        · have hsk : s k = some (.vDict cv) := by
            rw [get_many_dget, if_pos (List.mem_cons_self _ _)] at hdg
            rw [← hs'k]
            exact (fetchVal_some_inv _ _ _ hdg).1
          have hsc :
              staleCheck (callMV k gs u2 (expire_group u1 [G] s)) cv = true :=
            staleCheck_eq_true_of _ _ _ _ (mem_of_dget _ _ _ hmvG)
              (fun he => hfresh cv hsk he.symm)
          simp [hmem, hsc]
        · simp [hmem]
      | vStr t => rfl
      | vInt n => rfl
      | vNone => rfl
  refine ⟨postStore k gs u2 v (expire_group u1 [G] s),
    dset (callMV k gs u2 (expire_group u1 [G] s)) "value" v, ?_, ?_, ?_, ?_⟩
  · rw [wrapper_eq_literalCall _ _ _ _ _ _ _ hk,
      literalCall_stale _ _ _ _ _ _ hstale1, recomputeRes]
    simp only [hf]
  · exact postStore_k _ _ _ _ _
  · rw [pyGet, dget_dset_self, Option.getD_some]
  · rw [wrapper_eq_literalCall _ _ _ _ _ _ _ hk]
    exact literalCall_hit_postStore k gs u2 u3 v _ func' a' hval hu2

/-- Witness for C1's amended theorem at a concrete instance. -/
theorem C1_group_invalidation_witness :
    ∃ s₂ env,
      wrapper litCfg uStreamB fOkV []
        (expire_group uStreamA ["g"] emptyStore) = .value (.vStr "v") true s₂ ∧
      s₂ "k" = some (.vDict env) ∧ pyGet env "value" = .vStr "v" ∧
      wrapper litCfg uStreamC fOkV [] s₂ = .value (.vStr "v") false s₂ :=
  C1_group_invalidation "k" "g" ["g"] true uStreamA uStreamB uStreamC fOkV
    fOkV [] [] emptyStore (.vStr "v") (by decide) (by decide) (by decide)
    (by decide) (by decide) uStreamB_ne rfl
    (fun d h => Option.noConfusion h)

/-- C4: for a literal-key cached function, a repeated call made right after
a successful call — the group markers in the backing store unchanged in
between — returns the same value, does not invoke the computation (the
debug call counter stays at 1) and performs no backend write: the store is
returned exactly as it was. -/
theorem C4_idempotent_hit {ε : Type} (k : String) (gs : List String)
    (dbg : Bool) (u1 u2 : Nat → String)
    (func : List String → Except ε PyVal) (a a' : List String)
    (s s₁ : Store) (v : PyVal) (b : Bool)
    (hk : ¬ k = "") (hval : "value" ∉ gs) (hu1 : ∀ j, ¬ u1 j = "")
    (hclean : ∀ g ∈ gs, ∀ w, s g = some w → w.truthy = true)
    (h1 : wrapper ⟨some k, none, some gs, dbg⟩ u1 func a s = .value v b s₁) :
    wrapper ⟨some k, none, some gs, dbg⟩ u2 func a' s₁ = .value v false s₁ := by
  rw [wrapper_eq_literalCall _ _ _ _ _ _ _ hk] at h1 ⊢
  by_cases hs : isStale k gs u1 s
  · rw [literalCall_stale _ _ _ _ _ _ hs, recomputeRes] at h1
    cases hfa : func a with
    | error e =>
      simp only [hfa] at h1
      exact RunResult.noConfusion h1
    | ok v' =>
      simp only [hfa] at h1
      injection h1 with hv hb hs1
      subst hs1
      subst hv
      exact literalCall_hit_postStore k gs u1 u2 v' s func a' hval hu1
  · have hs0 : isStale k gs u1 s = false := by simpa using hs
    obtain ⟨cv, hdg, hmem, hsc, heq⟩ := literalCall_fresh k gs u1 func a s hs0
    rw [heq] at h1
    injection h1 with hv hb hs1
    subst hs1
    have hs2 : isStale k gs u2 s = false := by
      rw [isStale]
      cases hdg2 : dget (get_many s (k :: gs)) k with
      | none =>
        rw [hdg2] at hdg
        exact Option.noConfusion hdg
      | some w =>
        rw [hdg2] at hdg
        injection hdg with hw
        subst hw
        have hscnew : staleCheck (callMV k gs u2 s) cv = false := by
          rw [staleCheck_eq_false_iff]
          rintro ⟨g, w'⟩ hgmem
          have hdgg : dget (callMV k gs u2 s) g = some w' :=
            dget_of_mem_nodup _ _ _ (callMV_nodup _ _ _ _) hgmem
          obtain ⟨hgk, hggs, w₀, hsg, hnn, hd⟩ :=
            callMV_dget_inv _ _ _ _ _ _ hdgg
          have htr : w₀.truthy = true := hclean g hggs w₀ hsg
          have hww : w' = w₀ := by
            rcases hd with ⟨_, h⟩ | ⟨hfalse, _⟩
            · exact h
            · rw [htr] at hfalse
              exact Bool.noConfusion hfalse
          have hmv1g : dget (callMV k gs u1 s) g = some w₀ :=
            callMV_dget_of _ _ _ _ _ _ hggs hgk hsg hnn htr
          rw [show ((g, w') : String × PyVal).2 = w' from rfl, hww]
          exact (staleCheck_eq_false_iff _ _).mp hsc (g, w₀)
            (mem_of_dget _ _ _ hmv1g)
        simp [hmem, hscnew]
    obtain ⟨cv', hdg', hmem', hsc', heq'⟩ :=
      literalCall_fresh k gs u2 func a' s hs2
    rw [heq']
    rw [hdg] at hdg'
    injection hdg' with h
    injection h with h
    subst h
    rw [hv]

/-- Witness for C4 at a concrete first call (miss then hit). -/
theorem C4_idempotent_hit_witness :
    wrapper litCfg uStreamB fOkV []
        ((wrapper litCfg uStreamA fOkV [] emptyStore).store) =
      .value (.vStr "v") false
        ((wrapper litCfg uStreamA fOkV [] emptyStore).store) :=
  C4_idempotent_hit "k" ["g"] true uStreamA uStreamB fOkV [] [] emptyStore
    ((wrapper litCfg uStreamA fOkV [] emptyStore).store) (.vStr "v") true
    (by decide) (by decide) uStreamA_ne
    (fun g hg w hw => Option.noConfusion hw) rfl

/-- C6: `expire_group` writes only the entries under the group names given
to it — any other key of the backing store is unchanged — and a literal-key
cached function whose key and group set are disjoint from the expired names
is unaffected: a call that was a fresh hit before the expiry (no invocation,
no write) is still a fresh hit after it and returns the same value. -/
theorem C6_group_isolation {ε : Type} (u1 u2 : Nat → String)
    (names : List String) (k : String) (gs : List String) (dbg : Bool)
    (func : List String → Except ε PyVal) (a : List String) (s : Store)
    (x : String) (v : PyVal)
    (hx : x ∉ names) (hk : ¬ k = "")
    (hdisj : ∀ g ∈ k :: gs, g ∉ names)
    (hhit : wrapper ⟨some k, none, some gs, dbg⟩ u2 func a s =
      .value v false s) :
    expire_group u1 names s x = s x ∧
    wrapper ⟨some k, none, some gs, dbg⟩ u2 func a
        (expire_group u1 names s) =
      .value v false (expire_group u1 names s) := by
  have hframe : ∀ y ∈ k :: gs, s y = expire_group u1 names s y :=
    fun y hy => (expire_group_not_mem u1 names s y (hdisj y hy)).symm
  refine ⟨expire_group_not_mem u1 names s x hx, ?_⟩
  rw [wrapper_eq_literalCall _ _ _ _ _ _ _ hk] at hhit ⊢
  by_cases hs : isStale k gs u2 s
  · rw [literalCall_stale _ _ _ _ _ _ hs, recomputeRes] at hhit
    cases hfa : func a with
    | error e =>
      simp only [hfa] at hhit
      exact RunResult.noConfusion hhit
    | ok v' =>
      simp only [hfa] at hhit
      injection hhit with _ hb _
      exact Bool.noConfusion hb
  · have hs0 : isStale k gs u2 s = false := by simpa using hs
    obtain ⟨cv, hdg, hmem, hsc, heq⟩ := literalCall_fresh k gs u2 func a s hs0
    rw [heq] at hhit
    injection hhit with hv hb hs1
    have hs' : isStale k gs u2 (expire_group u1 names s) = false := by
      rw [← isStale_congr _ _ _ _ _ hframe]
      exact hs0
    obtain ⟨cv', hdg', hmem', hsc', heq'⟩ :=
      literalCall_fresh k gs u2 func a _ hs'
    rw [heq']
    rw [← get_many_congr _ _ _ hframe, hdg] at hdg'
    injection hdg' with h
    injection h with h
    subst h
    rw [hv]

/-- Witness for C6: expiring an unrelated group leaves the key's entry and
the hit behaviour unchanged. -/
theorem C6_group_isolation_witness :
    expire_group uStreamC ["h"]
        ((wrapper litCfg uStreamA fOkV [] emptyStore).store) "k" =
      ((wrapper litCfg uStreamA fOkV [] emptyStore).store) "k" ∧
    wrapper litCfg uStreamB fOkV []
        (expire_group uStreamC ["h"]
          ((wrapper litCfg uStreamA fOkV [] emptyStore).store)) =
      .value (.vStr "v") false
        (expire_group uStreamC ["h"]
          ((wrapper litCfg uStreamA fOkV [] emptyStore).store)) :=
  C6_group_isolation uStreamC uStreamB ["h"] "k" ["g"] true fOkV []
    ((wrapper litCfg uStreamA fOkV [] emptyStore).store) "k" (.vStr "v")
    (by decide) (by decide) (by decide) rfl

/-- C8 (amended): a computation that returns `None` is cached like any other
result: with a literal key and empty group list, the first call stores an
envelope whose `value` slot is `None`, and a repeated call returns `None`
from the cache without re-invoking the computation and without writing. -/
theorem C8_none_is_cached {ε : Type} (k : String) (dbg : Bool)
    (u1 u2 : Nat → String) (func : List String → Except ε PyVal)
    (a a' : List String) (s : Store)
    (hk : ¬ k = "") (hu1 : ∀ j, ¬ u1 j = "")
    (hf : func a = .ok .vNone) (hs : s k = none) :
    ∃ s₂,
      wrapper ⟨some k, none, some [], dbg⟩ u1 func a s =
        .value .vNone true s₂ ∧
      s₂ k = some (.vDict [("value", .vNone)]) ∧
      wrapper ⟨some k, none, some [], dbg⟩ u2 func a' s₂ =
        .value .vNone false s₂ := by
  have hmv : callMV k [] u1 s = [] := by
    rw [callMV]
    simp [get_many, getManyAux, hs, dremove, mintMarkers]
  have hstale : isStale k [] u1 s = true := by
    rw [isStale]
    have hdg : dget (get_many s (k :: [])) k = none := by
      rw [get_many_dget, if_pos (List.mem_cons_self _ _)]
      simp [fetchVal, hs]
    simp [hdg]
  refine ⟨postStore k [] u1 .vNone s, ?_, ?_, ?_⟩
  · rw [wrapper_eq_literalCall _ _ _ _ _ _ _ hk,
      literalCall_stale _ _ _ _ _ _ hstale, recomputeRes]
    simp only [hf]
  · rw [postStore_k, hmv]
    rfl
  · rw [wrapper_eq_literalCall _ _ _ _ _ _ _ hk]
    exact literalCall_hit_postStore k [] u1 u2 .vNone s func a' (by simp) hu1

/-- Witness for C8's amended theorem. -/
theorem C8_none_is_cached_witness :
    ∃ s₂,
      wrapper noGroupCfg uStreamA fNone [] emptyStore =
        .value .vNone true s₂ ∧
      s₂ "k" = some (.vDict [("value", .vNone)]) ∧
      wrapper noGroupCfg uStreamB fNone [] s₂ = .value .vNone false s₂ :=
  C8_none_is_cached "k" true uStreamA uStreamB fNone [] [] emptyStore
    (by decide) uStreamA_ne rfl rfl

/-- C10: when a cached function's group list contains the name ``value`` and
a marker `M` is stored under the backing-store key ``value``, any call whose
computed value differs from `.vStr M` re-invokes the computation; the new
envelope keeps the computed value in the ``value`` slot (clobbering the slot
where that group's marker was recorded) while the marker under ``value`` is
rewritten unchanged, so the next call re-invokes again — the freshness
comparison for that group can only succeed if the cached value itself equals
the marker string. -/
theorem C10_value_group_collision {ε : Type} (k : String) (gs : List String)
    (dbg : Bool) (u1 u2 : Nat → String)
    (func : List String → Except ε PyVal) (a : List String) (s : Store)
    (M : String) (v : PyVal)
    (hk : ¬ k = "") (hkgs : k ∉ gs) (hvg : "value" ∈ gs)
    (hM : s "value" = some (.vStr M)) (hMne : ¬ M = "")
    (hf : func a = .ok v) (hv : ¬ v = .vStr M)
    (henv : ∀ d, s k = some (.vDict d) → ¬ pyGet d "value" = .vStr M) :
    ∃ s₂,
      wrapper ⟨some k, none, some gs, dbg⟩ u1 func a s = .value v true s₂ ∧
      s₂ "value" = some (.vStr M) ∧
      (∃ env, s₂ k = some (.vDict env) ∧ pyGet env "value" = v) ∧
      ∃ s₃, wrapper ⟨some k, none, some gs, dbg⟩ u2 func a s₂ =
        .value v true s₃ := by
  have hvk : ¬ "value" = k := fun he => hkgs (he ▸ hvg)
  have htr : PyVal.truthy (.vStr M) = true := by
    simp [PyVal.truthy, beq_eq_false_iff_ne.mpr hMne]
  have hmvv : dget (callMV k gs u1 s) "value" = some (.vStr M) :=
    callMV_dget_of _ _ _ _ _ _ hvg hvk hM (by simp) htr
  have hstale1 : isStale k gs u1 s = true := by
    rw [isStale]
    cases hdg : dget (get_many s (k :: gs)) k with
    | none => rfl
    | some w =>
      cases w with
      | vDict cv =>
        by_cases hmem : dmem cv "value"
        · have hsk : s k = some (.vDict cv) := by
            rw [get_many_dget, if_pos (List.mem_cons_self _ _)] at hdg
            exact (fetchVal_some_inv _ _ _ hdg).1
          have hsc : staleCheck (callMV k gs u1 s) cv = true :=
            staleCheck_eq_true_of _ _ _ _ (mem_of_dget _ _ _ hmvv)
              (fun he => henv cv hsk he.symm)
          simp [hmem, hsc]
        · simp [hmem]
      | vStr t => rfl
      | vInt n => rfl
      | vNone => rfl
  have hs2val : postStore k gs u1 v s "value" = some (.vStr M) :=
    postStore_ne_of_some _ _ _ _ _ _ _ hvk hmvv
  have hs2k : postStore k gs u1 v s k =
      some (.vDict (dset (callMV k gs u1 s) "value" v)) := postStore_k _ _ _ _ _
  have hmvv2 : dget (callMV k gs u2 (postStore k gs u1 v s)) "value" =
      some (.vStr M) :=
    callMV_dget_of _ _ _ _ _ _ hvg hvk hs2val (by simp) htr
  have henv2 : pyGet (dset (callMV k gs u1 s) "value" v) "value" = v := by
    rw [pyGet, dget_dset_self, Option.getD_some]
  have hstale2 : isStale k gs u2 (postStore k gs u1 v s) = true := by
    rw [isStale]
    have hfetchk : dget (get_many (postStore k gs u1 v s) (k :: gs)) k =
        some (.vDict (dset (callMV k gs u1 s) "value" v)) := by
      rw [get_many_dget, if_pos (List.mem_cons_self _ _)]
      simp [fetchVal, hs2k]
    have hmem2 : dmem (dset (callMV k gs u1 s) "value" v) "value" = true := by
      rw [dmem, dget_dset_self]
      rfl
    have hsc2 : staleCheck (callMV k gs u2 (postStore k gs u1 v s))
        (dset (callMV k gs u1 s) "value" v) = true :=
      staleCheck_eq_true_of _ _ _ _ (mem_of_dget _ _ _ hmvv2)
        (fun he => hv (by rw [henv2] at he; exact he.symm))
    simp [hfetchk, hmem2, hsc2]
  refine ⟨postStore k gs u1 v s, ?_, hs2val, ⟨_, hs2k, henv2⟩, ?_⟩
  · rw [wrapper_eq_literalCall _ _ _ _ _ _ _ hk,
      literalCall_stale _ _ _ _ _ _ hstale1, recomputeRes]
    simp only [hf]
  · refine ⟨postStore k gs u2 v (postStore k gs u1 v s), ?_⟩
    rw [wrapper_eq_literalCall _ _ _ _ _ _ _ hk,
      literalCall_stale _ _ _ _ _ _ hstale2, recomputeRes]
    simp only [hf]

/-- A computation always returning the string `"res"`. -/
def fRes : List String → Except String PyVal := fun _ => .ok (.vStr "res")

/-- A store holding marker `"M"` under the key `"value"`. -/
def valStore : Store := Store.set emptyStore "value" (.vStr "M")

/-- Witness for C10 at a concrete instance. -/
theorem C10_value_group_collision_witness :
    ∃ s₂,
      wrapper (⟨some "k", none, some ["value"], true⟩ : Config) uStreamA fRes
        [] valStore = .value (.vStr "res") true s₂ ∧
      s₂ "value" = some (.vStr "M") ∧
      (∃ env, s₂ "k" = some (.vDict env) ∧ pyGet env "value" = .vStr "res") ∧
      ∃ s₃, wrapper (⟨some "k", none, some ["value"], true⟩ : Config) uStreamB
        fRes [] s₂ = .value (.vStr "res") true s₃ :=
  C10_value_group_collision "k" ["value"] true uStreamA uStreamB fRes []
    valStore "M" (.vStr "res") (by decide) (by decide) (by decide) rfl
    (by decide) rfl (by decide) (fun d h => Option.noConfusion h)

end PotatoCache
